import Mathlib

/-!
Verification development for the PineScript-Architect generation pipeline
(`src/services/geminiService.ts`, `src/App.tsx`, `src/types.ts`).

Strings are modelled as `List Char`.  The JavaScript regular expressions used
by the source are modelled by explicit recursive scanners with the exact
JS semantics (leftmost match, greedy / lazy quantifiers, global replacement
continuing after each match without rescanning emitted output).  The JS
whitespace class `\s` and `String.prototype.trim` are modelled over the ASCII
whitespace characters; `\d` is `[0-9]`, matching `Char.isDigit`.
-/

/-- ASCII whitespace, modelling the JS `\s` class / `trim` on the inputs used. -/
def isWS (c : Char) : Bool :=
  c = ' ' || c = '\t' || c = '\n' || c = '\r' || c = '\x0b' || c = '\x0c'

/-- Strip leading whitespace (left part of JS `trim`). -/
def trimL (s : List Char) : List Char := s.dropWhile isWS

/-- Strip trailing whitespace (right part of JS `trim`). -/
def trimR (s : List Char) : List Char := (s.reverse.dropWhile isWS).reverse

/-- JS `String.prototype.trim`. -/
def trim (s : List Char) : List Char := trimR (trimL s)

/-- `leadsWith pat s` is true iff `pat` occurs at the very start of `s`
(the anchored-literal-match primitive all scanners below are built from). -/
def leadsWith : List Char → List Char → Bool
  | [], _ => true
  | _ :: _, [] => false
  | a :: as, b :: bs => a = b && leadsWith as bs

/-- Index of the first occurrence of `pat` in a string (JS `String.indexOf`),
`none` when absent. -/
def findSubIdx (pat : List Char) : List Char → Option Nat
  | [] => if leadsWith pat [] then some 0 else none
  | c :: cs =>
    if leadsWith pat (c :: cs) then some 0
    else (findSubIdx pat cs).map (· + 1)

/-- Substring test (`hay` contains `pat`). -/
def containsSub (hay pat : List Char) : Bool := (findSubIdx pat hay).isSome

/-- The backtick character. -/
def btick : Char := Char.ofNat 96

/-- The triple-backtick fence delimiter of the code-block regex. -/
def fenceMark : List Char := [btick, btick, btick]

/-- First index at which a triple backtick starts, `none` when there is none. -/
def findTriple : List Char → Option Nat
  | [] => none
  | c :: cs =>
    if leadsWith fenceMark (c :: cs) then some 0
    else (findTriple cs).map (· + 1)

/-- Case-insensitive anchored literal match (the regex `i` flag). -/
def ciLeads : List Char → List Char → Bool
  | [], _ => true
  | _ :: _, [] => false
  | a :: as, b :: bs => a.toLower = b.toLower && ciLeads as bs

/-- Length of the language hint consumed by `(?:pinescript|pine|)` (with the
`i` flag) at the start of `s`: the alternatives are tried in order and the
first one matching is kept.  (Committing to the first matching alternative is
faithful to the backtracking regex: the hint consists of letters only, so no
closing triple backtick can hide inside a longer hint, hence if the overall
match fails with the first matching alternative it fails with all of them.) -/
def fenceTagLen (s : List Char) : Nat :=
  if ciLeads ("pinescript".toList) s then 10
  else if ciLeads ("pine".toList) s then 4
  else 0

/-- Model of `text.match(/```(?:pinescript|pine|)\s*([\s\S]*?)\s*```/i)`.
Returns `some (pre, content, post)` where `pre` is the text before the
leftmost match, `content` the raw text between the language hint and the
closing fence (the regex capture group is `trim content`, since the greedy
`\s*` padding around the lazy group strips exactly the whitespace margins),
and `post` the text after the match. -/
def findFence : List Char → Option (List Char × List Char × List Char)
  | [] => none
  | c :: cs =>
    if leadsWith fenceMark (c :: cs) then
      let afterOpen := (c :: cs).drop 3
      let afterTag := afterOpen.drop (fenceTagLen afterOpen)
      match findTriple afterTag with
      | some j => some ([], afterTag.take j, afterTag.drop (j + 3))
      | none =>
        match findFence cs with
        | some (pre, mid, post) => some (c :: pre, mid, post)
        | none => none
    else
      match findFence cs with
      | some (pre, mid, post) => some (c :: pre, mid, post)
      | none => none

/-- The literal `//@version=` (start of the version-tag regex, and the needle
of the `indexOf` fallback search). -/
def tagLit : List Char := "//@version=".toList

/-- One match step of the version-tag regex `\/\/@version=\d+\s*` anchored at
the start of `s`: on success returns the remainder of `s` after the match
(the literal, then one or more digits, greedy, then greedy `\s*`). -/
def tagMatch? (s : List Char) : Option (List Char) :=
  if leadsWith tagLit s then
    match s.drop tagLit.length with
    | c :: cs =>
      if c.isDigit then some (((c :: cs).dropWhile Char.isDigit).dropWhile isWS)
      else none
    | [] => none
  else none

/-- Fuel-driven scanner for the global replacement
`replace(/\/\/@version=\d+\s*\/g, '')`: at each position either remove a
match and continue after it, or keep one character.  A match consumes at
least one character, so fuel `s.length` suffices. -/
def stripTagsAux : Nat → List Char → List Char
  | 0, s => s
  | n + 1, s =>
    match tagMatch? s with
    | some rest => stripTagsAux n rest
    | none =>
      match s with
      | [] => []
      | c :: cs => c :: stripTagsAux n cs

/-- Model of `cleanCode.replace(/\/\/@version=\d+\s*\/g, '')`. -/
def stripTags (s : List Char) : List Char := stripTagsAux s.length s

/-- Scanner for `replace(/\n{3,}/g, '\n\n')`: `p` counts newlines of the run
currently being read; a maximal run of three or more newlines is emitted as
exactly two. -/
def collapseAux : Nat → List Char → List Char
  | p, [] => List.replicate (min p 2) '\n'
  | p, c :: cs =>
    if c = '\n' then collapseAux (p + 1) cs
    else List.replicate (min p 2) '\n' ++ c :: collapseAux 0 cs

/-- Model of `cleanCode.replace(/\n{3,}/g, '\n\n')`. -/
def collapse (s : List Char) : List Char := collapseAux 0 s

/-- `version.replace(/[^0-9]/g, '')`. -/
def versionDigits (v : List Char) : List Char := v.filter Char.isDigit

/-- The version tag `` `//@version=${versionNum}` `` prepended by the
normalizer. -/
def versionTag (v : List Char) : List Char := tagLit ++ versionDigits v

/-- Step 1 of `postProcessCode`: if the markdown-block regex matches, replace
the text by the trimmed capture group (`match[1].trim()`). -/
def fenceExtract (s : List Char) : List Char :=
  match findFence s with
  | some (_, mid, _) => trim mid
  | none => s

/-- Model of `postProcessCode(rawText, version)` from
`src/services/geminiService.ts`: markdown-block extraction, removal of
existing version tags, prepending the rebuilt version tag, and collapsing
runs of three or more newlines. -/
def postProcessCode (rawText v : List Char) : List Char :=
  collapse (versionTag v ++ '\n' :: stripTags (fenceExtract rawText))

/-- The literal section marker `[ANALYSIS]`. -/
def markAnalysis : List Char := "[ANALYSIS]".toList

/-- The literal section marker `[CODE]`. -/
def markCode : List Char := "[CODE]".toList

/-- Fuel-driven scanner for `replace(/\[ANALYSIS\]|\[CODE\]/g, '')` (the two
alternatives can never match at the same position, so alternation order is
immaterial; a match consumes at least one character, so fuel `s.length`
suffices). -/
def stripMarkersAux : Nat → List Char → List Char
  | 0, s => s
  | _ + 1, [] => []
  | n + 1, c :: cs =>
    if leadsWith markAnalysis (c :: cs) then stripMarkersAux n ((c :: cs).drop 10)
    else if leadsWith markCode (c :: cs) then stripMarkersAux n ((c :: cs).drop 6)
    else c :: stripMarkersAux n cs

/-- Model of `explanation.replace(/\[ANALYSIS\]|\[CODE\]/g, '')`. -/
def stripMarkers (s : List Char) : List Char := stripMarkersAux s.length s

/-- The code/explanation split shared verbatim by `generatePineScript`
(lines 183–193) and `refinePineScript` (lines 289–299): first the fenced
markdown block (code = capture group, explanation = text with the whole match
removed, trimmed, section markers removed, trimmed again); else the
`indexOf('//@version=')` fallback (code = substring from the marker,
explanation = substring before it); `none` when both fail. -/
def extractCommon (text : List Char) : Option (List Char × List Char) :=
  match findFence text with
  | some (pre, mid, post) =>
    some (trim mid, trim (stripMarkers (trim (pre ++ post))))
  | none =>
    match findSubIdx tagLit text with
    | some k => some (text.drop k, text.take k)
    | none => none

/-- The generation path's extraction-failure sentinel
`"// Error: Could not parse code block."`. -/
def parseSentinel : List Char := "// Error: Could not parse code block.".toList

/-- Extraction step of `generatePineScript`: on total failure the code is the
fixed sentinel and the explanation stays the full raw text. -/
def generateExtract (text : List Char) : List Char × List Char :=
  match extractCommon text with
  | some r => r
  | none => (parseSentinel, text)

/-- The inline failure marker `refinePineScript` appends to the previous code
when extraction fails. -/
def errMarker : List Char :=
  "\n\n// ERROR: AI failed to generate the updated code block. Please try refining again.".toList

/-- The fixed failure explanation of the refinement path. -/
def refineFailMsg : List Char :=
  "I understood your request but failed to generate the full code structure. Please try again.".toList

/-- Extraction step of `refinePineScript`: on total failure the code is the
prior `currentCode` with the inline failure marker appended, and the
explanation is the fixed failure message. -/
def refineExtract (currentCode text : List Char) : List Char × List Char :=
  match extractCommon text with
  | some r => r
  | none => (currentCode ++ errMarker, refineFailMsg)

/-- The `GeneratedResult` record of `src/types.ts`. -/
structure GeneratedResult where
  code : List Char
  explanation : List Char
deriving DecidableEq

/-- Response handling of `generatePineScript` after the service call:
extraction followed by `postProcessCode` on the code part. -/
def generateResult (text v : List Char) : GeneratedResult :=
  ⟨postProcessCode (generateExtract text).fst v, (generateExtract text).snd⟩

/-- Response handling of `refinePineScript` after the service call:
extraction (with the failure-append rule) followed by `postProcessCode`. -/
def refineResult (currentCode text v : List Char) : GeneratedResult :=
  ⟨postProcessCode (refineExtract currentCode text).fst v,
   (refineExtract currentCode text).snd⟩

/-! ### Stage orchestration of `generatePineScript`

The callback is modelled as a function that may throw (`Except ε Unit`), and
the control flow of `generatePineScript` around it is made explicit: the
`NORMALIZING_REQUEST` notification (line 87) happens *before* the
`try` block, so an exception there propagates as-is; the other three
notifications happen *inside* the `try`, whose `catch` rethrows the fixed
`"Pipeline Error: Failed to generate valid script."` error.  The remote call
is abstracted by the response text `svcText` it returns. -/

/-- Outcome of one `generatePineScript` run: normal result, raw callback
exception propagated from outside the `try`, or the wrapped pipeline error
thrown by the `catch` block. -/
inductive RunOutcome (ε : Type) where
  | ok (r : GeneratedResult)
  | threw (e : ε)
  | pipelineErr
deriving DecidableEq

/-- Stage message `'NORMALIZING_REQUEST'`. -/
def msgNormalizing : List Char := "NORMALIZING_REQUEST".toList

/-- Stage message `'OPTIMIZING_LOGIC'`. -/
def msgOptimizing : List Char := "OPTIMIZING_LOGIC".toList

/-- Stage message `'GENERATING_CODE'`. -/
def msgGenerating : List Char := "GENERATING_CODE".toList

/-- Stage message `'VALIDATING_OUTPUT'`. -/
def msgValidating : List Char := "VALIDATING_OUTPUT".toList

/-- Control flow of `generatePineScript` with a supplied callback `cb`, a
successful service response `svcText`, and target version `v`. -/
def generateRun {ε : Type} (cb : List Char → Except ε Unit)
    (svcText v : List Char) : RunOutcome ε :=
  match cb msgNormalizing with
  | .error e => .threw e
  | .ok _ =>
    match cb msgOptimizing with
    | .error _ => .pipelineErr
    | .ok _ =>
      match cb msgGenerating with
      | .error _ => .pipelineErr
      | .ok _ =>
        match cb msgValidating with
        | .error _ => .pipelineErr
        | .ok _ => .ok (generateResult svcText v)

/-! ### Prompt assembly

The two system prompts are interpolated template literals; each interpolated
policy constant (and each literal section between interpolations) is one
opaque fragment, listed in the exact order it appears in the template. -/

/-- The fragments making up the two system prompts. -/
inductive Frag where
  | genHeader          -- "You are \"PineArchitect-v5\" …"
  | refineHeader       -- "You are a Pine Script Refinement Specialist …"
  | guidelines         -- INSTITUTIONAL_GUIDELINES
  | quality            -- QUALITY_CHECKS
  | safetyRules        -- SYNTAX_SAFETY_GUARD
  | architecture       -- "### ARCHITECTURE RULES" section (generation only)
  | customCtx          -- customContextPrompt block
  | refineRules        -- "### RULES FOR REFINEMENT" section
  | genOutputFormat    -- "### OUTPUT FORMAT" section of generation
  | refineOutputFormat -- "### OUTPUT FORMAT" section of refinement
deriving DecidableEq

/-- Fragment order of the generation system prompt (lines 101–136):
`isExpertMode ? INSTITUTIONAL_GUIDELINES : ''`, then `QUALITY_CHECKS`, then
`SYNTAX_SAFETY_GUARD`, then the architecture-rules section, then
`customContextPrompt` (empty string when no context), then the output-format
section. -/
def genSystemFrags (expert hasCtx : Bool) : List Frag :=
  [.genHeader] ++ (if expert then [.guidelines] else [])
    ++ [.quality, .safetyRules, .architecture]
    ++ (if hasCtx then [.customCtx] else []) ++ [.genOutputFormat]

/-- Fragment order of the refinement system prompt (lines 230–258):
`QUALITY_CHECKS`, then `isExpertMode ? INSTITUTIONAL_GUIDELINES : ''`, then
`SYNTAX_SAFETY_GUARD`, then `customContextPrompt`, then the
refinement-rules section, then the output-format section. -/
def refineSystemFrags (expert hasCtx : Bool) : List Frag :=
  [.refineHeader, .quality] ++ (if expert then [.guidelines] else [])
    ++ [.safetyRules] ++ (if hasCtx then [.customCtx] else [])
    ++ [.refineRules, .refineOutputFormat]

/-- The five policy fragments named by the specification. -/
def isPolicyFrag : Frag → Bool
  | .guidelines | .quality | .safetyRules | .architecture | .customCtx => true
  | _ => false

/-- The fixed policy-fragment order asserted by the specification: domain
guidelines (iff expert), quality checklist, syntax-safety rules,
architecture rules, supplemental context (iff provided). -/
def specPolicyOrder (expert hasCtx : Bool) : List Frag :=
  (if expert then [.guidelines] else [])
    ++ [.quality, .safetyRules, .architecture]
    ++ (if hasCtx then [.customCtx] else [])

/-! ### Structured parsing in `extractStrategyFromPdf`

`JSON.parse` itself is external; its result (or parse failure) is modelled by
an `Option JValue`.  JSON numbers are modelled as integers, which is enough
for the truthiness distinctions the handler makes. -/

/-- A parsed JSON value. -/
inductive JValue where
  | jnull
  | jbool (b : Bool)
  | jnum (n : Int)
  | jstr (s : List Char)
  | jarr (elems : List JValue)
  | jobj (fields : List (List Char × JValue))

/-- JS truthiness of a field value (`undefined`, i.e. an absent field, is
handled by the callers via `Option`). -/
def truthy : JValue → Bool
  | .jnull => false
  | .jbool b => b
  | .jnum n => n != 0
  | .jstr s => !s.isEmpty
  | .jarr _ => true
  | .jobj _ => true

/-- Property lookup on a parsed JSON object (`JSON.parse` keeps the last of
duplicate keys). -/
def jlookup (fields : List (List Char × JValue)) (key : List Char) :
    Option JValue :=
  fields.foldl (fun acc kv => if kv.fst = key then some kv.snd else acc) none

/-- The typed result the PDF analysis degrades to (the `overlay` slot is an
actual boolean after handling, the other two slots keep whatever JSON value
survived the unchecked `as PdfAnalysisResult` cast). -/
structure PdfOut where
  scriptType : JValue
  overlay : Bool
  generatedPrompt : JValue

/-- The field-level default notice `"Failed to extract prompt from PDF."`. -/
def promptFieldDefault : JValue := .jstr ("Failed to extract prompt from PDF.".toList)

/-- The catch-branch result returned when `JSON.parse` throws (or when the
strict-mode property access/assignment on a non-object parse result throws
inside the same `try`). -/
def catchResult : PdfOut :=
  ⟨.jstr ("indicator".toList), true,
   .jstr ("Error parsing PDF analysis. The AI processed the file but returned invalid JSON.".toList)⟩

/-- Response handling of `extractStrategyFromPdf` (lines 430–449): `none`
models a `JSON.parse` throw.  A parsed object gets per-field fallback
validation: `scriptType` and `generatedPrompt` are replaced by their defaults
exactly when falsy/absent (`if (!result.field)`), `overlay` is replaced by
`true` exactly when not a boolean.  A parsed array behaves like an object
without the three fields (property assignment on an array succeeds).  Any
other parse result (`null`, number, string, boolean) makes the strict-mode
property access or assignment throw inside the `try`, landing in the same
catch branch as a parse failure. -/
def handleParsed : Option JValue → PdfOut
  | none => catchResult
  | some (.jobj fs) =>
    ⟨(match jlookup fs ("scriptType".toList) with
      | some v => if truthy v then v else .jstr ("indicator".toList)
      | none => .jstr ("indicator".toList)),
     (match jlookup fs ("overlay".toList) with
      | some (.jbool b) => b
      | _ => true),
     (match jlookup fs ("generatedPrompt".toList) with
      | some v => if truthy v then v else promptFieldDefault
      | none => promptFieldDefault)⟩
  | some (.jarr _) =>
    ⟨.jstr ("indicator".toList), true, promptFieldDefault⟩
  | some _ => catchResult

/-! ### `enhancePrompt`

The second parameter `_model` is part of the source signature but unused:
the request always goes to the fixed `'gemini-3-pro-preview'` model.  The
service interaction is abstracted: `svc` is the outcome of the completion
call (`Except.error` = transport failure caught by the `catch`, `Except.ok
none` = missing `response.text`, `Except.ok (some t)` = returned text). -/

/-- A completion-service request as assembled by `enhancePrompt`
(temperature is recorded times ten to stay in `Nat`). -/
structure SvcRequest where
  model : List Char
  content : List Char
  temperatureTimes10 : Nat
  maxOutputTokens : Nat
deriving DecidableEq

/-- The system prompt of `enhancePrompt`. -/
def enhanceSysText : List Char :=
  ("You are a Senior Pine Script Architect assisting a trader.\n"
    ++ "Your goal is to refine the user's raw input into a **Structured Requirement Specification** for coding.\n"
    ++ "\nCRITICAL RULES:\n"
    ++ "1. **Preserve Intent**: Do not change the user's core strategy idea. Only clarify it.\n"
    ++ "2. **Structure**: Format the output clearly with headers like \"LOGIC:\", \"CONDITIONS:\", \"FILTERS:\", \"VISUALS:\".\n"
    ++ "3. **Technical Precision**: Replace vague terms with technical Pine Script concepts (e.g., \"stop loss\" -> \"ATR-based Stop Loss or % Trailing Stop\").\n"
    ++ "4. **Language**: STRICTLY output in the SAME LANGUAGE as the input (Turkish -> Turkish, English -> English).\n"
    ++ "5. **No Filler**: Return ONLY the new prompt text. No \"Here is the improved version\" prefix.\n"
    ++ "6. **Don't Over-Engineer**: If the user asks for a simple RSI, keep it simple but precise. Don't add unrelated indicators randomly.\n").toList

/-- The user prompt of `enhancePrompt` around the raw input text. -/
def enhanceUserText (inputText : List Char) : List Char :=
  ("RAW INPUT: \"".toList) ++ inputText ++ ("\"\n\nREFINED SPECIFICATION:\n".toList)

/-- The request `enhancePrompt(inputText, _model)` issues.  The `_model`
argument is received (mirroring the source signature) and ignored; the
effective model is the fixed `'gemini-3-pro-preview'`. -/
def enhanceRequest (inputText _model : List Char) : SvcRequest :=
  ⟨("gemini-3-pro-preview".toList),
   enhanceSysText ++ ("\n\n".toList) ++ enhanceUserText inputText,
   3, 2048⟩

/-- The value `enhancePrompt` returns, given the service outcome:
`response.text?.trim() || inputText`, and the original input on a caught
transport error. -/
def enhanceOutcome (inputText _model : List Char)
    (svc : Except Unit (Option (List Char))) : List Char :=
  match svc with
  | .error _ => inputText
  | .ok none => inputText
  | .ok (some t) => if trim t = [] then inputText else trim t

/-! ### Auxiliary observations used to state the theorems -/

/-- Three consecutive newlines (the trigger of the `\n{3,}` collapse). -/
def tripleNL : List Char := ['\n', '\n', '\n']

/-- Whether a run of three or more newlines occurs anywhere in `s`. -/
def hasTripleNL : List Char → Bool
  | [] => false
  | c :: cs => leadsWith tripleNL (c :: cs) || hasTripleNL cs

/-- Whether a version-tag match (`//@version=` followed by a digit) starts at
the very beginning of `s`.  A list starting this way is also what the
specification calls a version-declaration line when it is a line. -/
def isTagStart (s : List Char) : Bool :=
  leadsWith tagLit s &&
    (match s.drop tagLit.length with
     | c :: _ => c.isDigit
     | [] => false)

/-- Whether no version-tag match starts anywhere in `s`. -/
def noTagIn : List Char → Bool
  | [] => true
  | c :: cs => !isTagStart (c :: cs) && noTagIn cs

/-- Split a string into its lines at `'\n'` (used to count
version-declaration lines of the normalizer output). -/
def splitNL : List Char → List (List Char)
  | [] => [[]]
  | c :: cs =>
    if c = '\n' then [] :: splitNL cs
    else
      match splitNL cs with
      | [] => [[c]]
      | l :: ls => (c :: l) :: ls

/-! ## Lemmas -/

theorem leadsWith_same_append (p t : List Char) : leadsWith p (p ++ t) = true := by
  induction p with
  | nil => rfl
  | cons a as ih => simp [leadsWith, ih]

theorem leadsWith_length_le {p s : List Char} (h : leadsWith p s = true) :
    p.length ≤ s.length := by
  induction p generalizing s with
  | nil => simp
  | cons a as ih =>
    cases s with
    | nil => simp [leadsWith] at h
    | cons b bs =>
      simp only [leadsWith, Bool.and_eq_true] at h
      simpa using ih h.2

theorem leadsWith_append_right {p a : List Char} (r : List Char)
    (h : leadsWith p a = true) : leadsWith p (a ++ r) = true := by
  induction p generalizing a with
  | nil => rfl
  | cons c cs ih =>
    cases a with
    | nil => simp [leadsWith] at h
    | cons b bs =>
      simp only [leadsWith, Bool.and_eq_true] at h ⊢
      exact ⟨h.1, ih h.2⟩

theorem not_leadsWith_of_not_containsSub {s pat : List Char}
    (h : containsSub s pat = false) : leadsWith pat s = false := by
  cases s with
  | nil =>
    by_cases hl : leadsWith pat [] = true
    · simp [containsSub, findSubIdx, hl] at h
    · simpa using hl
  | cons c cs =>
    by_cases hl : leadsWith pat (c :: cs) = true
    · simp [containsSub, findSubIdx, hl] at h
    · simpa using hl

theorem containsSub_cons_false {c : Char} {s pat : List Char}
    (h : containsSub (c :: s) pat = false) : containsSub s pat = false := by
  by_cases hl : leadsWith pat (c :: s) = true
  · simp [containsSub, findSubIdx, hl] at h
  · simp only [containsSub, findSubIdx, hl, if_false, Option.isSome_map] at h ⊢
    simpa [containsSub] using h

theorem containsSub_of_leadsWith {s pat : List Char}
    (h : leadsWith pat s = true) : containsSub s pat = true := by
  cases s with
  | nil => simp [containsSub, findSubIdx, h]
  | cons c cs => simp [containsSub, findSubIdx, h]

theorem containsSub_middle (a pat b : List Char) :
    containsSub (a ++ (pat ++ b)) pat = true := by
  induction a with
  | nil =>
    exact containsSub_of_leadsWith (leadsWith_same_append pat b)
  | cons c a' ih =>
    show (findSubIdx pat (c :: (a' ++ (pat ++ b)))).isSome = true
    by_cases hl : leadsWith pat (c :: (a' ++ (pat ++ b))) = true
    · simp [findSubIdx, hl]
    · simp only [findSubIdx, hl, Bool.false_eq_true, if_false]
      have ih' := ih
      unfold containsSub at ih'
      cases hfs : findSubIdx pat (a' ++ (pat ++ b)) with
      | none => rw [hfs] at ih'; simp at ih'
      | some k => simp

theorem dropWhile_append_all {p : Char → Bool} {d : List Char}
    (h : ∀ c ∈ d, p c = true) (s : List Char) :
    (d ++ s).dropWhile p = s.dropWhile p := by
  induction d with
  | nil => rfl
  | cons c d' ih =>
    have hc : p c = true := h c (by simp)
    simp only [List.cons_append, List.dropWhile_cons_of_pos hc]
    exact ih (fun x hx => h x (by simp [hx]))

theorem length_dropWhile_le' (p : Char → Bool) (l : List Char) :
    (l.dropWhile p).length ≤ l.length := by
  induction l with
  | nil => simp
  | cons c cs ih =>
    by_cases hc : p c = true
    · simp only [List.dropWhile_cons_of_pos hc]
      exact Nat.le_succ_of_le ih
    · simp [List.dropWhile_cons_of_neg (by simpa using hc)]

theorem tagMatch?_length_lt {s r : List Char} (h : tagMatch? s = some r) :
    r.length < s.length := by
  unfold tagMatch? at h
  split at h
  case isTrue hl =>
    have hlen : tagLit.length ≤ s.length := leadsWith_length_le hl
    have h11 : tagLit.length = 11 := by decide
    split at h
    case h_1 c cs hd =>
      split at h
      case isTrue hdig =>
        have hr : ((c :: cs).dropWhile Char.isDigit).dropWhile isWS = r :=
          Option.some.inj h
        have h1 : r.length ≤ (c :: cs).length := by
          calc r.length
              = (((c :: cs).dropWhile Char.isDigit).dropWhile isWS).length := by
                rw [hr]
            _ ≤ ((c :: cs).dropWhile Char.isDigit).length := length_dropWhile_le' _ _
            _ ≤ (c :: cs).length := length_dropWhile_le' _ _
        have h2 : (c :: cs).length = s.length - tagLit.length := by
          rw [← hd]; exact List.length_drop _ _
        simp only [List.length_cons] at h1 h2
        omega
      case isFalse hdig => simp at h
    case h_2 hd => simp at h
  case isFalse hl => simp at h

theorem tagMatch?_nil : tagMatch? [] = none := by decide

theorem stripTagsAux_congr :
    ∀ n, ∀ s : List Char, ∀ m, s.length ≤ n → s.length ≤ m →
      stripTagsAux n s = stripTagsAux m s := by
  intro n
  induction n with
  | zero =>
    intro s m hn _
    have : s = [] := List.eq_nil_of_length_eq_zero (Nat.le_zero.mp hn)
    subst this
    cases m with
    | zero => rfl
    | succ m' => simp [stripTagsAux, tagMatch?_nil]
  | succ n' ih =>
    intro s m hn hm
    cases hmt : tagMatch? s with
    | some rest =>
      have hlt : rest.length < s.length := tagMatch?_length_lt hmt
      have hs_pos : 1 ≤ s.length := by omega
      cases m with
      | zero => omega
      | succ m' =>
        simp only [stripTagsAux, hmt]
        exact ih rest m' (by omega) (by omega)
    | none =>
      cases s with
      | nil =>
        cases m with
        | zero => rfl
        | succ m' => simp [stripTagsAux, tagMatch?_nil]
      | cons c cs =>
        cases m with
        | zero => simp at hm
        | succ m' =>
          simp only [stripTagsAux, hmt]
          have := ih cs m' (by simpa using hn) (by simpa using hm)
          rw [this]

theorem stripTags_of_some {s r : List Char} (h : tagMatch? s = some r) :
    stripTags s = stripTags r := by
  have hlt : r.length < s.length := tagMatch?_length_lt h
  have h1 : 1 ≤ s.length := by omega
  unfold stripTags
  cases hs : s.length with
  | zero => omega
  | succ n =>
    simp only [stripTagsAux, h]
    exact stripTagsAux_congr n r r.length (by omega) (by omega)

theorem collapseAux_append_noNL {t : List Char} (h : ∀ c ∈ t, ¬ c = '\n')
    (s : List Char) : collapseAux 0 (t ++ s) = t ++ collapseAux 0 s := by
  induction t with
  | nil => rfl
  | cons c t' ih =>
    have hc : ¬ c = '\n' := h c (by simp)
    simp only [List.cons_append, collapseAux, hc, if_false]
    simp [ih (fun x hx => h x (by simp [hx]))]

theorem hasTripleNL_cons_ne {c : Char} (hc : ¬ c = '\n') (s : List Char) :
    hasTripleNL (c :: s) = hasTripleNL s := by
  have h1 : ('\n' = c) = False := eq_false (fun h => hc h.symm)
  simp [hasTripleNL, tripleNL, leadsWith, h1]

theorem hasTripleNL_append_false_right {a b : List Char}
    (h : hasTripleNL (a ++ b) = false) : hasTripleNL b = false := by
  induction a with
  | nil => simpa using h
  | cons c a' ih =>
    simp only [List.cons_append, hasTripleNL, Bool.or_eq_false_iff] at h
    exact ih h.2

theorem hasTripleNL_append_noNL {t : List Char} (h : ∀ c ∈ t, ¬ c = '\n')
    (s : List Char) : hasTripleNL (t ++ s) = hasTripleNL s := by
  induction t with
  | nil => rfl
  | cons c t' ih =>
    have hc : ¬ c = '\n' := h c (by simp)
    rw [List.cons_append, hasTripleNL_cons_ne hc]
    exact ih (fun x hx => h x (by simp [hx]))

theorem hasTripleNL_replicate {k : Nat} (hk : k ≤ 2) :
    hasTripleNL (List.replicate k '\n') = false := by
  interval_cases k <;> decide

theorem hasTripleNL_replicate_cons {k : Nat} (hk : k ≤ 2) {c : Char}
    (hc : ¬ c = '\n') {t : List Char} (ht : hasTripleNL t = false) :
    hasTripleNL (List.replicate k '\n' ++ c :: t) = false := by
  have h1 : ('\n' = c) = False := eq_false (fun h => hc h.symm)
  interval_cases k <;>
    simp [hasTripleNL, tripleNL, leadsWith, h1, ht, List.replicate]

theorem collapseAux_fix : ∀ (s : List Char) (p : Nat), p ≤ 2 →
    hasTripleNL (List.replicate p '\n' ++ s) = false →
    collapseAux p s = List.replicate p '\n' ++ s := by
  intro s
  induction s with
  | nil =>
    intro p hp _
    simp [collapseAux, Nat.min_eq_left hp]
  | cons c cs ih =>
    intro p hp h
    by_cases hc : c = '\n'
    · subst hc
      have hp1 : p ≤ 1 := by
        by_contra hgt
        have hp2 : p = 2 := by omega
        subst hp2
        simp [hasTripleNL, tripleNL, leadsWith, List.replicate] at h
      have heq : List.replicate p '\n' ++ '\n' :: cs
          = List.replicate (p + 1) '\n' ++ cs := by
        rw [List.replicate_succ']; simp
      rw [heq] at h
      simp only [collapseAux, if_pos rfl]
      rw [ih (p + 1) (by omega) h, heq]
      simp
    · have h0 : hasTripleNL cs = false := by
        have h2 := hasTripleNL_append_false_right h
        rw [hasTripleNL_cons_ne hc] at h2
        exact h2
      simp only [collapseAux, hc, if_false]
      rw [Nat.min_eq_left hp, ih 0 (by omega) (by simpa using h0)]
      simp

theorem collapseAux_noTriple : ∀ (s : List Char) (p : Nat),
    hasTripleNL (collapseAux p s) = false := by
  intro s
  induction s with
  | nil =>
    intro p
    exact hasTripleNL_replicate (Nat.min_le_right p 2)
  | cons c cs ih =>
    intro p
    by_cases hc : c = '\n'
    · subst hc
      simp only [collapseAux, if_pos rfl]
      exact ih (p + 1)
    · simp only [collapseAux, hc, if_false]
      exact hasTripleNL_replicate_cons (Nat.min_le_right p 2) hc (ih 0)

theorem collapse_idem (s : List Char) : collapse (collapse s) = collapse s := by
  unfold collapse
  exact collapseAux_fix _ 0 (by omega) (by simpa using collapseAux_noTriple s 0)

theorem collapseAux_pos_head : ∀ (s : List Char) (p : Nat), 1 ≤ p →
    ∃ r, collapseAux p s = '\n' :: r := by
  intro s
  induction s with
  | nil =>
    intro p hp
    refine ⟨List.replicate (min p 2 - 1) '\n', ?_⟩
    have hm : min p 2 = (min p 2 - 1) + 1 := by omega
    simp only [collapseAux]
    rw [hm, List.replicate_succ]
    simp
  | cons c cs ih =>
    intro p hp
    by_cases hc : c = '\n'
    · subst hc
      simp only [collapseAux, if_pos rfl]
      exact ih (p + 1) (by omega)
    · refine ⟨List.replicate (min p 2 - 1) '\n' ++ c :: collapseAux 0 cs, ?_⟩
      simp only [collapseAux, hc, if_false]
      have hm : min p 2 = (min p 2 - 1) + 1 := by omega
      rw [hm, List.replicate_succ]
      simp

theorem versionTag_no_nl (v : List Char) : ∀ c ∈ versionTag v, ¬ c = '\n' := by
  intro c hc
  unfold versionTag at hc
  rcases List.mem_append.mp hc with h | h
  · intro he; subst he; revert h; decide
  · have hd : c.isDigit = true := List.of_mem_filter h
    intro he; subst he
    exact absurd hd (by decide)

theorem postProcess_shape (x v : List Char) :
    postProcessCode x v
      = versionTag v
          ++ '\n' :: ((postProcessCode x v).drop ((versionTag v).length + 1)) := by
  unfold postProcessCode collapse
  rw [collapseAux_append_noNL (versionTag_no_nl v)]
  have h1 : collapseAux 0 ('\n' :: stripTags (fenceExtract x))
      = collapseAux 1 (stripTags (fenceExtract x)) := by simp [collapseAux]
  obtain ⟨r, hr⟩ := collapseAux_pos_head (stripTags (fenceExtract x)) 1 (le_refl 1)
  rw [h1, hr]
  have h2 : (versionTag v ++ '\n' :: r).drop ((versionTag v).length + 1) = r := by
    have heq : versionTag v ++ '\n' :: r = (versionTag v ++ ['\n']) ++ r := by simp
    rw [heq]
    exact List.drop_left' (by simp)
  rw [h2]

theorem drop_append_le {l r : List Char} : ∀ {n : Nat}, n ≤ l.length →
    (l ++ r).drop n = l.drop n ++ r := by
  induction l with
  | nil =>
    intro n h
    have : n = 0 := by simpa using h
    simp [this]
  | cons c l' ih =>
    intro n h
    cases n with
    | zero => simp
    | succ n' =>
      simp only [List.cons_append, List.drop_succ_cons]
      exact ih (by simpa using h)

theorem splitNL_ne_nil (s : List Char) : splitNL s ≠ [] := by
  induction s with
  | nil => simp [splitNL]
  | cons c cs ih =>
    by_cases hc : c = '\n'
    · simp [splitNL, hc]
    · simp only [splitNL, hc, if_false]
      cases h : splitNL cs with
      | nil => simp
      | cons l ls => simp

theorem splitNL_head_pre : ∀ (s l : List Char) (ls : List (List Char)),
    splitNL s = l :: ls → ∃ r, s = l ++ r := by
  intro s
  induction s with
  | nil =>
    intro l ls h
    simp only [splitNL] at h
    injection h with h1 _
    exact ⟨[], by simp [← h1]⟩
  | cons c cs ih =>
    intro l ls h
    by_cases hc : c = '\n'
    · subst hc
      simp only [splitNL, if_pos rfl] at h
      injection h with h1 _
      exact ⟨'\n' :: cs, by simp [← h1]⟩
    · simp only [splitNL, hc, if_false] at h
      cases hcs : splitNL cs with
      | nil => exact absurd hcs (splitNL_ne_nil cs)
      | cons l' ls' =>
        rw [hcs] at h
        simp only [] at h
        injection h with h1 h2
        obtain ⟨r, hr⟩ := ih l' ls' hcs
        exact ⟨r, by rw [← h1, hr]; simp⟩

theorem splitNL_append_noNL {t : List Char} (h : ∀ c ∈ t, ¬ c = '\n')
    (s : List Char) : splitNL (t ++ '\n' :: s) = t :: splitNL s := by
  induction t with
  | nil => simp [splitNL]
  | cons c t' ih =>
    have hc : ¬ c = '\n' := h c (by simp)
    show splitNL (c :: (t' ++ '\n' :: s)) = (c :: t') :: splitNL s
    simp only [splitNL, hc, if_false]
    rw [ih (fun x hx => h x (by simp [hx]))]

theorem noTagIn_cons {c : Char} {cs : List Char} (h : noTagIn (c :: cs) = true) :
    isTagStart (c :: cs) = false ∧ noTagIn cs = true := by
  simp only [noTagIn, Bool.and_eq_true, Bool.not_eq_true'] at h
  exact h

theorem isTagStart_of_pre {l s : List Char} (hpre : ∃ r, s = l ++ r)
    (hd : isTagStart l = true) : isTagStart s = true := by
  obtain ⟨r, hr⟩ := hpre
  subst hr
  unfold isTagStart at hd ⊢
  simp only [Bool.and_eq_true] at hd ⊢
  refine ⟨leadsWith_append_right r hd.1, ?_⟩
  have h11 : tagLit.length ≤ l.length := leadsWith_length_le hd.1
  rw [drop_append_le h11]
  cases hld : l.drop tagLit.length with
  | nil => rw [hld] at hd; exact absurd hd.2 (by simp)
  | cons c cs =>
    rw [hld] at hd
    simpa using hd.2

theorem lines_no_decl {s : List Char} (h : noTagIn s = true) :
    ∀ l ∈ splitNL s, isTagStart l = false := by
  induction s with
  | nil =>
    intro l hl
    simp only [splitNL, List.mem_singleton] at hl
    subst hl
    rfl
  | cons c cs ih =>
    intro l hl
    obtain ⟨hc0, hcs⟩ := noTagIn_cons h
    by_cases hc : c = '\n'
    · subst hc
      simp [splitNL] at hl
      rcases hl with h1 | h1
      · subst h1; rfl
      · exact ih hcs l h1
    · simp only [splitNL, hc, if_false] at hl
      cases hsp : splitNL cs with
      | nil => exact absurd hsp (splitNL_ne_nil cs)
      | cons l' ls' =>
        rw [hsp] at hl
        simp only [List.mem_cons] at hl
        rcases hl with h1 | h1
        · subst h1
          cases hts : isTagStart (c :: l') with
          | false => rfl
          | true =>
            obtain ⟨r, hr⟩ := splitNL_head_pre cs l' ls' hsp
            have : isTagStart (c :: cs) = true :=
              isTagStart_of_pre ⟨r, by rw [hr]; rfl⟩ hts
            rw [this] at hc0
            exact absurd hc0 (by simp)
        · exact ih hcs l (by rw [hsp]; exact List.mem_cons_of_mem l' h1)

theorem leadsWith_fence_first3 (a : Char) (A R R' : List Char) :
    leadsWith fenceMark ((a :: A) ++ [btick, btick] ++ R)
      = leadsWith fenceMark ((a :: A) ++ [btick, btick] ++ R') := by
  cases A with
  | nil => simp [fenceMark, leadsWith]
  | cons b B =>
    cases B with
    | nil => simp [fenceMark, leadsWith]
    | cons d D => simp [fenceMark, leadsWith]

theorem findTriple_boundary : ∀ (C : List Char),
    containsSub (C ++ [btick, btick]) fenceMark = false →
    ∀ E2 : List Char, findTriple (C ++ (fenceMark ++ E2)) = some C.length := by
  intro C
  induction C with
  | nil =>
    intro _ E2
    have hcond : leadsWith fenceMark (btick :: btick :: btick :: E2) = true :=
      leadsWith_same_append fenceMark E2
    show findTriple (btick :: btick :: btick :: E2) = some 0
    simp only [findTriple, hcond, if_true]
  | cons c C' ih =>
    intro h E2
    have hC' : containsSub (C' ++ [btick, btick]) fenceMark = false :=
      containsSub_cons_false h
    have hf : leadsWith fenceMark (c :: (C' ++ (fenceMark ++ E2))) = false := by
      have h3 := leadsWith_fence_first3 c C' (btick :: E2) []
      have heq : (c :: C') ++ [btick, btick] ++ (btick :: E2)
          = c :: (C' ++ (fenceMark ++ E2)) := by
        simp [fenceMark]
      rw [heq] at h3
      rw [h3]
      have heq2 : (c :: C') ++ [btick, btick] ++ ([] : List Char)
          = (c :: C') ++ [btick, btick] := by simp
      rw [heq2]
      exact not_leadsWith_of_not_containsSub h
    show findTriple (c :: (C' ++ (fenceMark ++ E2))) = some (C'.length + 1)
    simp only [findTriple, hf, Bool.false_eq_true, if_false]
    rw [ih hC' E2]
    rfl

theorem findFence_decomp : ∀ (E1 C E2 : List Char),
    containsSub (E1 ++ [btick, btick]) fenceMark = false →
    containsSub (C ++ [btick, btick]) fenceMark = false →
    fenceTagLen (C ++ (fenceMark ++ E2)) = 0 →
    findFence (E1 ++ (fenceMark ++ (C ++ (fenceMark ++ E2))))
      = some (E1, C, E2) := by
  intro E1
  induction E1 with
  | nil =>
    intro C E2 _ hC hTag
    have hcond :
        leadsWith fenceMark (btick :: btick :: btick :: (C ++ (fenceMark ++ E2)))
          = true :=
      leadsWith_same_append fenceMark (C ++ (fenceMark ++ E2))
    show findFence (btick :: btick :: btick :: (C ++ (fenceMark ++ E2)))
      = some ([], C, E2)
    simp only [findFence, hcond, if_true]
    have hdrop3 : (btick :: btick :: btick :: (C ++ (fenceMark ++ E2))).drop 3
        = C ++ (fenceMark ++ E2) := rfl
    rw [hdrop3, hTag]
    simp only [List.drop_zero]
    rw [findTriple_boundary C hC E2]
    have htake : (C ++ (fenceMark ++ E2)).take C.length = C := List.take_left C _
    have hdropC : (C ++ (fenceMark ++ E2)).drop (C.length + 3) = E2 := by
      have heq : C ++ (fenceMark ++ E2) = (C ++ fenceMark) ++ E2 := by simp
      rw [heq]
      exact List.drop_left' (by simp [fenceMark])
    show some ([], (C ++ (fenceMark ++ E2)).take C.length,
        (C ++ (fenceMark ++ E2)).drop (C.length + 3)) = some ([], C, E2)
    rw [htake, hdropC]
  | cons e E1' ih =>
    intro C E2 hE1 hC hTag
    have hE1' : containsSub (E1' ++ [btick, btick]) fenceMark = false :=
      containsSub_cons_false hE1
    have hf :
        leadsWith fenceMark
          (e :: (E1' ++ (fenceMark ++ (C ++ (fenceMark ++ E2))))) = false := by
      have h3 := leadsWith_fence_first3 e E1'
        (btick :: (C ++ (fenceMark ++ E2))) []
      have heq : (e :: E1') ++ [btick, btick] ++ (btick :: (C ++ (fenceMark ++ E2)))
          = e :: (E1' ++ (fenceMark ++ (C ++ (fenceMark ++ E2)))) := by
        simp [fenceMark]
      rw [heq] at h3
      rw [h3]
      have heq2 : (e :: E1') ++ [btick, btick] ++ ([] : List Char)
          = (e :: E1') ++ [btick, btick] := by simp
      rw [heq2]
      exact not_leadsWith_of_not_containsSub hE1
    show findFence (e :: (E1' ++ (fenceMark ++ (C ++ (fenceMark ++ E2)))))
      = some (e :: E1', C, E2)
    simp only [findFence, hf, Bool.false_eq_true, if_false]
    rw [ih C E2 hE1' hC hTag]

theorem tagMatch?_exact {d B : List Char} (hd : d ≠ [])
    (hall : ∀ c ∈ d, c.isDigit = true) (hw : B.dropWhile isWS = B) :
    tagMatch? (tagLit ++ (d ++ '\n' :: B)) = some B := by
  unfold tagMatch?
  have hlw : leadsWith tagLit (tagLit ++ (d ++ '\n' :: B)) = true :=
    leadsWith_same_append _ _
  rw [if_pos hlw]
  have hdrop : (tagLit ++ (d ++ '\n' :: B)).drop tagLit.length
      = d ++ '\n' :: B := List.drop_left _ _
  rw [hdrop]
  cases d with
  | nil => exact absurd rfl hd
  | cons c ds =>
    have hdig : c.isDigit = true := hall c (by simp)
    simp only [List.cons_append]
    rw [if_pos hdig]
    congr 1
    have h1 : (c :: (ds ++ '\n' :: B)).dropWhile Char.isDigit = '\n' :: B := by
      have hstep : ((c :: ds) ++ '\n' :: B).dropWhile Char.isDigit
          = ('\n' :: B).dropWhile Char.isDigit :=
        dropWhile_append_all hall ('\n' :: B)
      simp only [List.cons_append] at hstep
      rw [hstep]
      exact List.dropWhile_cons_of_neg (by decide)
    rw [h1]
    rw [List.dropWhile_cons_of_pos (by decide : isWS '\n' = true)]
    exact hw

/-! ## Claims -/

/-- C1, counterexample: normalization is *not* idempotent for every text.
For `x = " a"` (body starting with whitespace) and `v = "v6"`, the first pass
yields `"//@version=6\n a"`, but the second pass's tag-removal regex
`\/\/@version=\d+\s*` also swallows the whitespace after the prepended tag,
yielding `"//@version=6\na"`. -/
theorem postProcessCode_not_idempotent :
    ¬ postProcessCode (postProcessCode (" a".toList) ("v6".toList)) ("v6".toList)
        = postProcessCode (" a".toList) ("v6".toList) := by decide

/-- C1, amended: `postProcessCode` is idempotent provided the version string
contains a digit and the first-pass output contains no fenced block, and its
body (the part after the version line) neither starts with whitespace nor
contains any version-tag match. -/
theorem postProcessCode_idempotent (x v : List Char)
    (hd : versionDigits v ≠ [])
    (hf : findFence (postProcessCode x v) = none)
    (hw : ((postProcessCode x v).drop ((versionTag v).length + 1)).dropWhile isWS
        = (postProcessCode x v).drop ((versionTag v).length + 1))
    (ht : stripTags ((postProcessCode x v).drop ((versionTag v).length + 1))
        = (postProcessCode x v).drop ((versionTag v).length + 1)) :
    postProcessCode (postProcessCode x v) v = postProcessCode x v := by
  set B := (postProcessCode x v).drop ((versionTag v).length + 1) with hB
  have hshape : postProcessCode x v = versionTag v ++ '\n' :: B := postProcess_shape x v
  have hall : ∀ c ∈ versionDigits v, c.isDigit = true :=
    fun c hc => List.of_mem_filter hc
  have htm : tagMatch? (postProcessCode x v) = some B := by
    rw [hshape]
    have heq : versionTag v ++ '\n' :: B
        = tagLit ++ (versionDigits v ++ '\n' :: B) := by
      simp [versionTag]
    rw [heq]
    exact tagMatch?_exact hd hall hw
  have hstrip : stripTags (postProcessCode x v) = B := by
    rw [stripTags_of_some htm]
    exact ht
  have hfx : fenceExtract (postProcessCode x v) = postProcessCode x v := by
    unfold fenceExtract
    rw [hf]
  show collapse (versionTag v ++ '\n' :: stripTags (fenceExtract (postProcessCode x v)))
      = postProcessCode x v
  rw [hfx, hstrip, ← hshape]
  show collapse (postProcessCode x v) = postProcessCode x v
  unfold postProcessCode
  exact collapse_idem _

/-- C1 witness: the amended idempotence at `x = "plot(1)"`, `v = "v6"`. -/
theorem postProcessCode_idempotent_witness :
    postProcessCode (postProcessCode ("plot(1)".toList) ("v6".toList)) ("v6".toList)
      = postProcessCode ("plot(1)".toList) ("v6".toList) :=
  postProcessCode_idempotent ("plot(1)".toList) ("v6".toList)
    (by decide) (by decide) (by decide) (by decide)

/-- C5, counterexample: the output can contain two version-declaration lines.
Removing the match `//@version=1 ` from `x = "//@vers//@version=1 ion=2 x"`
splices the surrounding text into a *new* tag `//@version=2 x` (the global
replace does not rescan), so the output is
`"//@version=6\n//@version=2 x"` — two declaration lines, not one. -/
theorem postProcess_not_single_version_line :
    (splitNL (postProcessCode ("//@vers//@version=1 ion=2 x".toList) ("v6".toList))).countP
        isTagStart = 2 ∧
    ¬ (splitNL (postProcessCode ("//@vers//@version=1 ion=2 x".toList) ("v6".toList))).countP
        isTagStart = 1 := by
  constructor
  · decide
  · decide

/-- C5, amended: the output of `postProcessCode` has exactly one
version-declaration line (a line starting with `//@version=` followed by a
digit), and it is the first line, provided the version string contains a
digit and no version-tag match survives in (or is created in) the stripped
body. -/
theorem postProcess_single_version_line (x v : List Char)
    (hd : versionDigits v ≠ [])
    (hnt : noTagIn ((postProcessCode x v).drop ((versionTag v).length + 1)) = true) :
    (splitNL (postProcessCode x v)).countP isTagStart = 1 ∧
    splitNL (postProcessCode x v)
      = versionTag v
          :: splitNL ((postProcessCode x v).drop ((versionTag v).length + 1)) ∧
    isTagStart (versionTag v) = true := by
  set B := (postProcessCode x v).drop ((versionTag v).length + 1) with hB
  have hshape : postProcessCode x v = versionTag v ++ '\n' :: B := postProcess_shape x v
  have hsplit : splitNL (postProcessCode x v) = versionTag v :: splitNL B := by
    rw [hshape]
    exact splitNL_append_noNL (versionTag_no_nl v) B
  have hdecl : isTagStart (versionTag v) = true := by
    unfold isTagStart versionTag
    simp only [Bool.and_eq_true]
    refine ⟨leadsWith_same_append _ _, ?_⟩
    rw [List.drop_left]
    cases hv : versionDigits v with
    | nil => exact absurd hv hd
    | cons c ds =>
      have hmem : c ∈ versionDigits v := by rw [hv]; simp
      have : c.isDigit = true := List.of_mem_filter hmem
      simpa using this
  have hzero : (splitNL B).countP isTagStart = 0 := by
    rw [List.countP_eq_zero]
    intro l hl
    simp [lines_no_decl hnt l hl]
  refine ⟨?_, hsplit, hdecl⟩
  rw [hsplit, List.countP_cons_of_pos _ _ (by simpa using hdecl), hzero]

/-- C5 witness: the amended single-version-line property at `x = "plot(1)"`,
`v = "v6"`. -/
theorem postProcess_single_version_line_witness :
    (splitNL (postProcessCode ("plot(1)".toList) ("v6".toList))).countP isTagStart = 1 ∧
    splitNL (postProcessCode ("plot(1)".toList) ("v6".toList))
      = versionTag ("v6".toList)
          :: splitNL ((postProcessCode ("plot(1)".toList) ("v6".toList)).drop
              ((versionTag ("v6".toList)).length + 1)) ∧
    isTagStart (versionTag ("v6".toList)) = true :=
  postProcess_single_version_line ("plot(1)".toList) ("v6".toList)
    (by decide) (by decide)

set_option maxRecDepth 8000 in
/-- C2, counterexample: after a failed refinement extraction the result code
need not contain the prior `currentCode` as a substring: the appended marker
is normalized by `postProcessCode`, which strips version tags *inside* the
prior code.  With prior code `"a\n//@version=5\nb"` and response `"cannot"`
(no fence, no marker), the result code is
`"//@version=6\na\nb\n\n// ERROR: …"`, which does not contain the prior
code. -/
theorem refine_non_erasure_counterexample :
    containsSub
        (refineResult ("a\n//@version=5\nb".toList) ("cannot".toList)
          ("v6".toList)).code
        ("a\n//@version=5\nb".toList) = false := by decide

/-- C2, amended: for a refinement turn whose response text has neither a
fenced block nor a version marker, the result code is exactly the rebuilt
version tag, a newline, the prior `currentCode`, and the inline failure
marker — hence it contains `currentCode` followed by a visible failure
marker — and the explanation is the fixed failure message; provided the
prior code together with the appended marker contains no fenced block, no
version-tag match, and no newline run of length three or more arises. -/
theorem refine_non_erasure (cc text v : List Char)
    (hft : findFence text = none)
    (hmt : findSubIdx tagLit text = none)
    (hf : findFence (cc ++ errMarker) = none)
    (ht : stripTags (cc ++ errMarker) = cc ++ errMarker)
    (h3 : hasTripleNL ('\n' :: (cc ++ errMarker)) = false) :
    (refineResult cc text v).code = versionTag v ++ '\n' :: (cc ++ errMarker) ∧
    containsSub (refineResult cc text v).code cc = true ∧
    (refineResult cc text v).explanation = refineFailMsg := by
  have hex : refineExtract cc text = (cc ++ errMarker, refineFailMsg) := by
    unfold refineExtract extractCommon
    rw [hft, hmt]
  have hcode : (refineResult cc text v).code
      = postProcessCode (cc ++ errMarker) v := by
    unfold refineResult
    rw [hex]
  have hpp : postProcessCode (cc ++ errMarker) v
      = versionTag v ++ '\n' :: (cc ++ errMarker) := by
    unfold postProcessCode
    have hfx : fenceExtract (cc ++ errMarker) = cc ++ errMarker := by
      unfold fenceExtract
      rw [hf]
    rw [hfx, ht]
    have hnt : hasTripleNL (versionTag v ++ '\n' :: (cc ++ errMarker)) = false := by
      rw [hasTripleNL_append_noNL (versionTag_no_nl v)]
      exact h3
    have hfix := collapseAux_fix (versionTag v ++ '\n' :: (cc ++ errMarker)) 0
      (by omega) (by simpa using hnt)
    simpa [collapse] using hfix
  refine ⟨by rw [hcode, hpp], ?_, ?_⟩
  · rw [hcode, hpp]
    have heq : versionTag v ++ '\n' :: (cc ++ errMarker)
        = (versionTag v ++ ['\n']) ++ (cc ++ errMarker) := by simp
    rw [heq]
    exact containsSub_middle _ cc errMarker
  · unfold refineResult
    rw [hex]

/-- C2 witness: the amended non-erasure property at
`currentCode = "plot(close)"`, response `"cannot"`, `v = "v6"`. -/
theorem refine_non_erasure_witness :
    (refineResult ("plot(close)".toList) ("cannot".toList) ("v6".toList)).code
        = versionTag ("v6".toList) ++ '\n' :: (("plot(close)".toList) ++ errMarker) ∧
    containsSub
        (refineResult ("plot(close)".toList) ("cannot".toList) ("v6".toList)).code
        ("plot(close)".toList) = true ∧
    (refineResult ("plot(close)".toList) ("cannot".toList) ("v6".toList)).explanation
        = refineFailMsg :=
  refine_non_erasure ("plot(close)".toList) ("cannot".toList) ("v6".toList)
    (by decide) (by decide) (by decide) (by decide) (by decide)

/-- C3, counterexample: the refinement system prompt does *not* follow the
fixed policy order of the specification: in expert mode with supplemental
context its policy fragments appear as quality checklist, then guidelines,
then syntax-safety rules, then context — guidelines after the checklist, and
with no architecture-rules block at all. -/
theorem refine_prompt_order_differs :
    ¬ (refineSystemFrags true true).filter isPolicyFrag
        = specPolicyOrder true true := by decide

/-- C3, amended: the generation prompt follows the specified policy order
(guidelines iff expert, quality, safety, architecture, context iff
provided); the refinement prompt instead uses the order quality, guidelines
(iff expert), safety, context (iff provided), with no architecture-rules
fragment. -/
theorem prompt_fragment_order (expert hasCtx : Bool) :
    (genSystemFrags expert hasCtx).filter isPolicyFrag
      = specPolicyOrder expert hasCtx ∧
    (refineSystemFrags expert hasCtx).filter isPolicyFrag
      = [Frag.quality] ++ (if expert then [Frag.guidelines] else [])
        ++ [Frag.safetyRules] ++ (if hasCtx then [Frag.customCtx] else []) := by
  cases expert <;> cases hasCtx <;> exact ⟨rfl, rfl⟩

/-- C3 witness: the generation-side order at expert mode with context. -/
theorem prompt_fragment_order_witness :
    (genSystemFrags true true).filter isPolicyFrag = specPolicyOrder true true :=
  (prompt_fragment_order true true).1

/-- C4, counterexample: a callback that throws at every stage notification
makes `generatePineScript` abort with the raw exception (the first
notification is outside the `try`), rather than proceeding to the result it
returns with a non-throwing callback. -/
theorem callback_throw_aborts :
    generateRun (fun _ => Except.error ()) ("hi".toList) ("v6".toList)
        ≠ generateRun (fun _ => Except.ok ()) ("hi".toList) ("v6".toList) ∧
    generateRun (fun _ => Except.error ()) ("hi".toList) ("v6".toList)
        = RunOutcome.threw () := by
  exact ⟨by decide, rfl⟩

/-- C4, amended: the callback is not best-effort.  A run returns the normal
result only when the callback throws at none of the four notifications; a
throw at `NORMALIZING_REQUEST` (issued before the `try`) propagates as the
callback's own exception; a throw at any of the three later notifications
(inside the `try`) surfaces as the fixed wrapped pipeline error. -/
theorem generateRun_callback_behavior {ε : Type} (cb : List Char → Except ε Unit)
    (t v : List Char) :
    ((∀ m, cb m = .ok ()) → generateRun cb t v = .ok (generateResult t v)) ∧
    (∀ e, cb msgNormalizing = .error e → generateRun cb t v = .threw e) ∧
    (∀ e, cb msgNormalizing = .ok () →
      (cb msgOptimizing = .error e ∨
        (cb msgOptimizing = .ok () ∧
          (cb msgGenerating = .error e ∨
            (cb msgGenerating = .ok () ∧ cb msgValidating = .error e)))) →
      generateRun cb t v = .pipelineErr) := by
  refine ⟨?_, ?_, ?_⟩
  · intro h
    unfold generateRun
    rw [h msgNormalizing, h msgOptimizing, h msgGenerating, h msgValidating]
  · intro e he
    unfold generateRun
    rw [he]
  · intro e hn hrest
    unfold generateRun
    rw [hn]
    rcases hrest with h1 | ⟨h1, h2 | ⟨h2, h3⟩⟩
    · rw [h1]
    · rw [h1, h2]
    · rw [h1, h2, h3]

/-- C4 witness: a callback throwing at the first notification yields the raw
exception outcome. -/
theorem generateRun_callback_behavior_witness :
    generateRun (fun _ => Except.error ()) ("hi".toList) ("v6".toList)
      = RunOutcome.threw () :=
  (generateRun_callback_behavior (fun _ => Except.error ())
    ("hi".toList) ("v6".toList)).2.1 () rfl

/-- C6, counterexample: for the response `"A```pineapple```B"` — a fenced
block with interior `pineapple` — extraction does not return the trimmed
interior: the regex consumes `pine` as a language hint and returns
`"apple"`. -/
theorem extraction_language_hint_eaten :
    (generateExtract ("A```pineapple```B".toList)).fst = ("apple".toList) ∧
    ¬ (generateExtract ("A```pineapple```B".toList)).fst
        = ("pineapple".toList) := by
  exact ⟨by decide, by decide⟩

/-- C6, amended: for response text `E1 ++ ``` ++ C ++ ``` ++ E2` where no
triple backtick occurs in `E1` or `C` (nor at their boundary with the
fences) and `C` does not begin with a case-insensitive language hint
`pinescript`/`pine`, extraction returns the trimmed interior as code and, as
explanation, the trim of the remaining text with the fenced block removed
and the `[ANALYSIS]`/`[CODE]` markers stripped. -/
theorem extraction_round_trip (E1 C E2 : List Char)
    (hE1 : containsSub (E1 ++ [btick, btick]) fenceMark = false)
    (hC : containsSub (C ++ [btick, btick]) fenceMark = false)
    (hTag : fenceTagLen (C ++ (fenceMark ++ E2)) = 0) :
    generateExtract (E1 ++ (fenceMark ++ (C ++ (fenceMark ++ E2))))
      = (trim C, trim (stripMarkers (trim (E1 ++ E2)))) := by
  unfold generateExtract extractCommon
  rw [findFence_decomp E1 C E2 hE1 hC hTag]

/-- C6 witness: the round trip at `E1 = "Intro [ANALYSIS]\n"`,
`C = "//@version=5\nx = 1"`, `E2 = "\n[CODE] done"`. -/
theorem extraction_round_trip_witness :
    generateExtract (("Intro [ANALYSIS]\n".toList)
        ++ (fenceMark ++ (("//@version=5\nx = 1".toList)
            ++ (fenceMark ++ ("\n[CODE] done".toList)))))
      = (trim ("//@version=5\nx = 1".toList),
         trim (stripMarkers (trim (("Intro [ANALYSIS]\n".toList)
            ++ ("\n[CODE] done".toList))))) :=
  extraction_round_trip ("Intro [ANALYSIS]\n".toList)
    ("//@version=5\nx = 1".toList) ("\n[CODE] done".toList)
    (by decide) (by decide) (by decide)

/-- C7: fallback extraction.  When the response has no fenced block but
contains the version marker, whose first occurrence is at offset `k`, the
extraction returns the substring from `k` as code and the substring before
`k` as explanation. -/
theorem fallback_extraction (text : List Char) (k : Nat)
    (hf : findFence text = none) (hm : findSubIdx tagLit text = some k) :
    generateExtract text = (text.drop k, text.take k) := by
  unfold generateExtract extractCommon
  rw [hf, hm]

/-- C7 witness: the fallback at `"see //@version=5\nx"` (marker at offset
4). -/
theorem fallback_extraction_witness :
    generateExtract ("see //@version=5\nx".toList)
      = (("see //@version=5\nx".toList).drop 4,
         ("see //@version=5\nx".toList).take 4) :=
  fallback_extraction ("see //@version=5\nx".toList) 4 (by decide) (by decide)

/-- C8: extraction sentinel.  When the response has neither a fenced block
nor a version marker, the generation-path extraction returns the fixed
non-empty sentinel as code and the full raw text as explanation. -/
theorem sentinel_extraction (text : List Char)
    (hf : findFence text = none) (hm : findSubIdx tagLit text = none) :
    generateExtract text = (parseSentinel, text) ∧ ¬ parseSentinel = [] := by
  refine ⟨?_, by decide⟩
  unfold generateExtract extractCommon
  rw [hf, hm]

/-- C8 witness: the sentinel at the response `"no code at all"`. -/
theorem sentinel_extraction_witness :
    generateExtract ("no code at all".toList)
        = (parseSentinel, ("no code at all".toList)) ∧
    ¬ parseSentinel = [] :=
  sentinel_extraction ("no code at all".toList) (by decide) (by decide)

/-- C9, counterexample: a mistyped-but-truthy field is *kept*, not replaced
by its default: `{"scriptType": 123}` parses to a result whose `scriptType`
is the number `123` (the code only tests falsiness, `if (!result.scriptType)`),
not the default `"indicator"`. -/
theorem pdf_mistyped_field_kept :
    (handleParsed (some (.jobj [(("scriptType".toList), JValue.jnum 123)]))).scriptType
        = JValue.jnum 123 ∧
    ¬ JValue.jnum 123 = JValue.jstr ("indicator".toList) := by
  refine ⟨rfl, ?_⟩
  intro h
  exact JValue.noConfusion h

/-- C9, amended: parsing never propagates an error; a parse failure (or a
non-object parse result) yields exactly the fixed catch result; on a parsed
object each field is handled independently: `scriptType` and
`generatedPrompt` are replaced by their defaults exactly when absent or
falsy (truthy values are kept even when mistyped), and `overlay` is replaced
by `true` exactly when not a boolean. -/
theorem pdf_parse_defaults (fs : List (List Char × JValue)) :
    handleParsed none = catchResult ∧
    (∀ v, jlookup fs ("scriptType".toList) = some v → truthy v = true →
      (handleParsed (some (.jobj fs))).scriptType = v) ∧
    (∀ v, jlookup fs ("scriptType".toList) = some v → truthy v = false →
      (handleParsed (some (.jobj fs))).scriptType = .jstr ("indicator".toList)) ∧
    (jlookup fs ("scriptType".toList) = none →
      (handleParsed (some (.jobj fs))).scriptType = .jstr ("indicator".toList)) ∧
    (∀ b, jlookup fs ("overlay".toList) = some (.jbool b) →
      (handleParsed (some (.jobj fs))).overlay = b) ∧
    (∀ v, jlookup fs ("overlay".toList) = some v → (∀ b, ¬ v = .jbool b) →
      (handleParsed (some (.jobj fs))).overlay = true) ∧
    (jlookup fs ("overlay".toList) = none →
      (handleParsed (some (.jobj fs))).overlay = true) ∧
    (∀ v, jlookup fs ("generatedPrompt".toList) = some v → truthy v = true →
      (handleParsed (some (.jobj fs))).generatedPrompt = v) ∧
    (∀ v, jlookup fs ("generatedPrompt".toList) = some v → truthy v = false →
      (handleParsed (some (.jobj fs))).generatedPrompt = promptFieldDefault) ∧
    (jlookup fs ("generatedPrompt".toList) = none →
      (handleParsed (some (.jobj fs))).generatedPrompt = promptFieldDefault) := by
  refine ⟨rfl, ?_, ?_, ?_, ?_, ?_, ?_, ?_, ?_, ?_⟩
  · intro v hv htr
    show (match jlookup fs ("scriptType".toList) with
      | some w => if truthy w then w else JValue.jstr ("indicator".toList)
      | none => JValue.jstr ("indicator".toList)) = v
    rw [hv]
    show (if truthy v = true then v else JValue.jstr ("indicator".toList)) = v
    rw [if_pos htr]
  · intro v hv htr
    show (match jlookup fs ("scriptType".toList) with
      | some w => if truthy w then w else JValue.jstr ("indicator".toList)
      | none => JValue.jstr ("indicator".toList)) = JValue.jstr ("indicator".toList)
    rw [hv]
    show (if truthy v = true then v else JValue.jstr ("indicator".toList))
      = JValue.jstr ("indicator".toList)
    rw [if_neg (by simp [htr])]
  · intro hv
    show (match jlookup fs ("scriptType".toList) with
      | some w => if truthy w then w else JValue.jstr ("indicator".toList)
      | none => JValue.jstr ("indicator".toList)) = JValue.jstr ("indicator".toList)
    rw [hv]
  · intro b hv
    show (match jlookup fs ("overlay".toList) with
      | some (JValue.jbool b) => b
      | _ => true) = b
    rw [hv]
  · intro v hv hnb
    show (match jlookup fs ("overlay".toList) with
      | some (JValue.jbool b) => b
      | _ => true) = true
    rw [hv]
    cases v with
    | jbool b => exact absurd rfl (hnb b)
    | jnull => rfl
    | jnum n => rfl
    | jstr s => rfl
    | jarr xs => rfl
    | jobj gs => rfl
  · intro hv
    show (match jlookup fs ("overlay".toList) with
      | some (JValue.jbool b) => b
      | _ => true) = true
    rw [hv]
  · intro v hv htr
    show (match jlookup fs ("generatedPrompt".toList) with
      | some w => if truthy w then w else promptFieldDefault
      | none => promptFieldDefault) = v
    rw [hv]
    show (if truthy v = true then v else promptFieldDefault) = v
    rw [if_pos htr]
  · intro v hv htr
    show (match jlookup fs ("generatedPrompt".toList) with
      | some w => if truthy w then w else promptFieldDefault
      | none => promptFieldDefault) = promptFieldDefault
    rw [hv]
    show (if truthy v = true then v else promptFieldDefault) = promptFieldDefault
    rw [if_neg (by simp [htr])]
  · intro hv
    show (match jlookup fs ("generatedPrompt".toList) with
      | some w => if truthy w then w else promptFieldDefault
      | none => promptFieldDefault) = promptFieldDefault
    rw [hv]

/-- C9 witness: a present boolean `overlay` is kept. -/
theorem pdf_parse_defaults_witness :
    (handleParsed (some (.jobj [(("overlay".toList), JValue.jbool false)]))).overlay
      = false :=
  (pdf_parse_defaults [(("overlay".toList), JValue.jbool false)]).2.2.2.2.1 false rfl

/-- C10: the model argument of `enhancePrompt` has no influence: the
assembled request is identical for any two model selectors, always names the
fixed `gemini-3-pro-preview` model, and the returned value is the same
function of the input text and the service outcome. -/
theorem enhance_model_independent (text m1 m2 : List Char)
    (svc : Except Unit (Option (List Char))) :
    enhanceRequest text m1 = enhanceRequest text m2 ∧
    (enhanceRequest text m1).model = ("gemini-3-pro-preview".toList) ∧
    enhanceOutcome text m1 svc = enhanceOutcome text m2 svc :=
  ⟨rfl, rfl, rfl⟩

/-- C10 witness: the independence at concrete inputs. -/
theorem enhance_model_independent_witness :
    enhanceRequest ("rsi".toList) ("gemini-3-flash-preview".toList)
        = enhanceRequest ("rsi".toList) ("gemini-3-pro-preview".toList) ∧
    (enhanceRequest ("rsi".toList) ("gemini-3-flash-preview".toList)).model
        = ("gemini-3-pro-preview".toList) ∧
    enhanceOutcome ("rsi".toList) ("gemini-3-flash-preview".toList)
          (Except.ok (some ("  better  ".toList)))
        = enhanceOutcome ("rsi".toList) ("gemini-3-pro-preview".toList)
          (Except.ok (some ("  better  ".toList))) :=
  enhance_model_independent ("rsi".toList) ("gemini-3-flash-preview".toList)
    ("gemini-3-pro-preview".toList) (Except.ok (some ("  better  ".toList)))

